import Mathlib

/-!
Verification development for `persim/multi_bottleneck.py`: the bottleneck
distance between persistence diagrams, computed by a binary search over the
distinct entries of an augmented cost matrix combined with a max-flow
feasibility test.

The embedding below follows the Python source function `multi_bottleneck`
step by step:

* `Coord`/`prep` model the input coordinates (finite rationals, the two
  infinities, or NaN) and the filtering stage that drops points with a
  non-finite death coordinate, warns, and substitutes a placeholder (0, 0)
  point for an empty diagram.
* `Dmat`/`buildD` model the augmented (M+1) x (N+1) cost-matrix
  construction.  NumPy raises a broadcast error whenever the length-M
  persistence vector is assigned into a slice of different length (which
  happens exactly when M differs from N), so `buildD` returns `none` in that
  case; machine floats are modelled by rationals.
* `capFun`/`arcList` model the flow network the source builds with
  `AddArcWithCapacity` (the arcs added are pairwise distinct, so the network
  is faithfully represented by its capacity function; `arcList` additionally
  records the construction order used when flows are read back per arc).
* `MaxFlowEq` is modelled from the spec: the external max-flow oracle
  (`ortools` `SimpleMaxFlow`, spec section 4.3) returns the maximum value of
  an integral flow, so `OptimalFlow() == V` is embedded as "V is the maximum
  flow value".  `chooseFlow` is modelled from the spec as well: the oracle
  returns one maximal integral flow (which one is unspecified; the model
  picks the first in a fixed enumeration).
* `searchLoop`/`searchLoopM` model the `while` loop (binary search); the
  loop consumes the candidate list, so a fuel argument equal to the initial
  list length makes the recursion structural.  `searchLoop` is the variant
  used for the scalar result, which ignores the recorded matching;
  `searchLoopM` additionally threads the matching dictionary exactly as the
  source does.
* `reconstructGo` models the final reconstruction loop (`matching=True`),
  including Python's `KeyError` (dictionary lookup failure) and NumPy's
  negative-index wrapping, both surfaced as `none`.

Exceptions (broadcast errors, `IndexError` on an empty candidate array,
`KeyError`) are modelled by `Option`: a crashing run returns `none`.
-/

set_option maxRecDepth 8000

/-- A machine floating-point value as far as this program observes it: a
finite rational, one of the two infinities, or NaN.  `np.isfinite` is true
exactly on the first constructor. -/
inductive Coord
  | fin (q : ℚ)
  | pinf
  | ninf
  | nan
deriving DecidableEq

/-- A persistence-diagram point: a (birth, death) pair of coordinates. -/
abbrev CPt := Coord × Coord

/-- `np.isfinite`. -/
def finCoord : Coord → Bool
  | Coord.fin _ => true
  | _ => false

/-- The filtering stage of `multi_bottleneck` for one input diagram:
points with a non-finite death coordinate are dropped (with a warning,
returned as the Boolean flag, exactly when the input was non-empty and a
point was dropped), and a diagram left with zero points is replaced by the
single placeholder point (0, 0). -/
def prep (dgm : List CPt) : List CPt × Bool :=
  if dgm.length = 0 then
    ([(Coord.fin 0, Coord.fin 0)], false)
  else
    let F := dgm.filter fun p => finCoord p.2
    let warned := decide (F.length < dgm.length)
    if F.length = 0 then ([(Coord.fin 0, Coord.fin 0)], warned) else (F, warned)

/-- The number of points each side contributes after filtering and
placeholder substitution (the M and N of the source). -/
def Mof (dgm : List CPt) : ℕ := ((prep dgm).1).length

/-- The pair of warning flags `multi_bottleneck` emits: the first names
`dgm1`, the second names `dgm2`. -/
def mbWarnings (dgm1 dgm2 : List CPt) : Bool × Bool :=
  ((prep dgm1).2, (prep dgm2).2)

/-- A filtered point converted to its rational coordinates.  After the
filtering stage deaths are finite; a surviving non-finite birth coordinate
would propagate through the float arithmetic and is outside this model
(the spec declares diagrams with infinite or NaN coordinates a non-goal),
so conversion fails on it. -/
def ptToRat : CPt → Option (ℚ × ℚ)
  | (Coord.fin a, Coord.fin b) => some (a, b)
  | _ => none

/-- Pointwise coordinate conversion of a filtered diagram. -/
def toRatD : List CPt → Option (List (ℚ × ℚ))
  | [] => some []
  | p :: r =>
    match ptToRat p, toRatD r with
    | some q, some rest => some (q :: rest)
    | _, _ => none

/-- Half the persistence of a point: `0.5 * (death - birth)`. -/
def halfPers (p : ℚ × ℚ) : ℚ := (p.2 - p.1) / 2

/-- The L-infinity distance between two points, as computed row/column-wise
by `np.maximum(np.abs(Sb - Tb), np.abs(Sd - Td))`. -/
def linfDist (p q : ℚ × ℚ) : ℚ := max |p.1 - q.1| |p.2 - q.2|

/-- The augmented cost matrix `D` of the source, as the list of its rows:
the upper-left M x N block is the L-infinity cross-distance matrix, row M
holds the half-persistences of the points of the FIRST diagram
(`D[M, :N] = 0.5 * (S[:, 1] - S[:, 0])`), column N holds the
half-persistences of the points of the SECOND diagram
(`D[:M, N] = 0.5 * (T[:, 1] - T[:, 0])`), and the corner `D[M, N]` is 0.
The formula is only used when the two lengths agree (see `buildD`); the
`getD` defaults are never reached then. -/
def Dmat (S T : List (ℚ × ℚ)) : List (List ℚ) :=
  ((List.range S.length).map fun i =>
    ((List.range T.length).map fun j =>
      linfDist (S.getD i (0, 0)) (T.getD j (0, 0)))
      ++ [halfPers (T.getD i (0, 0))])
  ++ [((List.range T.length).map fun j => halfPers (S.getD j (0, 0))) ++ [0]]

/-- Matrix entry access `D[i, j]` (0 outside the stored shape). -/
def Dget (D : List (List ℚ)) (i j : ℕ) : ℚ := (D.getD i []).getD j 0

/-- The cost-matrix construction step.  NumPy's assignment
`D[M, :N] = 0.5 * (S[:, 1] - S[:, 0])` broadcasts a length-M vector into a
length-N slice, which raises a `ValueError` unless the lengths can be
broadcast, and the paired column assignment then forces M = N: for M < N
the row assignment only broadcasts when M = 1, and the column assignment
(length N into length M = 1) then still fails; for M > N the row assignment
fails outright.  So construction succeeds exactly when M = N. -/
def buildD (S T : List (ℚ × ℚ)) : Option (List (List ℚ)) :=
  if S.length = T.length then some (Dmat S T) else none

/-- `np.sort(np.unique(D.flatten()))[0:-1]`: the sorted distinct entries of
`D` with the largest removed. -/
def dsOf (D : List (List ℚ)) : List ℚ :=
  (List.insertionSort (fun a b : ℚ => a ≤ b) D.flatten.dedup).dropLast

/-- Total outgoing flow of node `v` in a flow on nodes `0, ..., K-1`. -/
def outS (f : ℕ → ℕ → ℕ) (K v : ℕ) : ℕ := ∑ u ∈ Finset.range K, f v u

/-- Total incoming flow of node `v`. -/
def inS (f : ℕ → ℕ → ℕ) (K v : ℕ) : ℕ := ∑ u ∈ Finset.range K, f u v

/-- An integral flow on the K-node network with capacity function `cap`:
capacity bounds, support inside the node range, and conservation at every
node other than the source and the sink. -/
def IsFlow (cap : ℕ → ℕ → ℕ) (K src snk : ℕ) (f : ℕ → ℕ → ℕ) : Prop :=
  (∀ u v, f u v ≤ cap u v) ∧
  (∀ u v, ¬(u < K ∧ v < K) → f u v = 0) ∧
  (∀ v, v < K → v ≠ src → v ≠ snk → outS f K v = inS f K v)

/-- The value of a flow: net flow out of the source. -/
def flowValue (f : ℕ → ℕ → ℕ) (K src : ℕ) : ℤ :=
  (outS f K src : ℤ) - (inS f K src : ℤ)

/-- Modelled from the spec: the external Max-Flow Oracle (spec section 4.3,
`ortools` `SimpleMaxFlow` in the source, whose implementation is not part of
this repository) returns the maximum achievable integral flow value, so the
source's test `V == graph.OptimalFlow()` holds exactly when some flow
attains value `V` and no flow exceeds it. -/
def MaxFlowEq (cap : ℕ → ℕ → ℕ) (K src snk : ℕ) (V : ℤ) : Prop :=
  (∃ f, IsFlow cap K src snk f ∧ flowValue f K src = V) ∧
  (∀ f, IsFlow cap K src snk f → flowValue f K src ≤ V)

/-- Conservation alone, in a finitary form (used to decide `MaxFlowEq`). -/
def consB (_cap : ℕ → ℕ → ℕ) (K src snk : ℕ) (f : ℕ → ℕ → ℕ) : Prop :=
  ∀ v ∈ Finset.range K, v ≠ src → v ≠ snk → outS f K v = inS f K v

instance consBdec (cap : ℕ → ℕ → ℕ) (K src snk : ℕ) (f : ℕ → ℕ → ℕ) :
    Decidable (consB cap K src snk f) := by
  unfold consB; infer_instance

/-- A capacity-bounded assignment on the node range, as a flow function. -/
def gOf (K : ℕ) (cap : ℕ → ℕ → ℕ)
    (g : ∀ u : Fin K, ∀ v : Fin K, Fin (cap u.1 v.1 + 1)) : ℕ → ℕ → ℕ :=
  fun u v => if h : u < K ∧ v < K then (g ⟨u, h.1⟩ ⟨v, h.2⟩).1 else 0

instance maxFlowEqDec (cap : ℕ → ℕ → ℕ) (K src snk : ℕ) (V : ℤ) :
    Decidable (MaxFlowEq cap K src snk V) :=
  decidable_of_iff'
    ((∃ g : ∀ u : Fin K, ∀ v : Fin K, Fin (cap u.1 v.1 + 1),
        consB cap K src snk (gOf K cap g) ∧ flowValue (gOf K cap g) K src = V) ∧
     (∀ g : ∀ u : Fin K, ∀ v : Fin K, Fin (cap u.1 v.1 + 1),
        consB cap K src snk (gOf K cap g) → flowValue (gOf K cap g) K src ≤ V))
    (by
      have hiff : ∀ g : ∀ u : Fin K, ∀ v : Fin K, Fin (cap u.1 v.1 + 1),
          IsFlow cap K src snk (gOf K cap g) ↔ consB cap K src snk (gOf K cap g) := by
        intro g
        constructor
        · rintro ⟨-, -, h3⟩ v hv; exact h3 v (Finset.mem_range.mp hv)
        · intro hc
          refine ⟨?_, ?_, ?_⟩
          · intro u v
            by_cases h : u < K ∧ v < K
            · simpa [gOf, h] using Nat.lt_succ_iff.mp (g ⟨u, h.1⟩ ⟨v, h.2⟩).2
            · simp [gOf, h]
          · intro u v h; simp [gOf, h]
          · intro v hv hs ht; exact hc v (Finset.mem_range.mpr hv) hs ht
      have key : ∀ f, IsFlow cap K src snk f →
          ∃ g : ∀ u : Fin K, ∀ v : Fin K, Fin (cap u.1 v.1 + 1), gOf K cap g = f := by
        intro f hf
        refine ⟨fun u v => ⟨f u.1 v.1, Nat.lt_succ_of_le (hf.1 u.1 v.1)⟩, ?_⟩
        funext u v
        by_cases h : u < K ∧ v < K
        · simp [gOf, h]
        · simp [gOf, h, hf.2.1 u v h]
      constructor
      · rintro ⟨⟨f, hf, hv⟩, hb⟩
        obtain ⟨g, hg⟩ := key f hf
        refine ⟨⟨g, ?_, ?_⟩, ?_⟩
        · exact (hiff g).mp (by rw [hg]; exact hf)
        · rw [hg]; exact hv
        · intro g2 hc
          exact hb _ ((hiff g2).mpr hc)
      · rintro ⟨⟨g, hc, hv⟩, hb⟩
        refine ⟨⟨gOf K cap g, (hiff g).mpr hc, hv⟩, ?_⟩
        intro f hf
        obtain ⟨g2, hg2⟩ := key f hf
        have := hb g2 ((hiff g2).mp (by rw [hg2]; exact hf))
        rwa [hg2] at this)

/-- The capacity function of the feasibility graph the source builds at
threshold `d` (nodes: rows `0..M`, columns `M+1..M+N+1`, source `M+N+2`,
sink `M+N+3`; `n0 = M+1`, `n1 = N+1`):

* an arc `(i, j + n0)` of capacity 1 for every matrix entry `D[i, j] <= d`,
  except the corner `(n0-1, n1-1)`, whose arc has capacity `multiS = M`;
* arcs `(source, i)` of capacity 1 for `i < n0 - 1`;
* arcs `(j + n0, sink)` of capacity 1 for `j < n1 - 1`;
* the arc `(source, S_diagonal)` of capacity `multiS = M`;
* the arc `(T_diagonal, sink)` of capacity `multiT = N`.

All arcs added by the source are pairwise distinct, so the capacity
function represents the network faithfully. -/
def capFun (D : List (List ℚ)) (M N : ℕ) (d : ℚ) : ℕ → ℕ → ℕ := fun u v =>
  if u < M + 1 ∧ M + 1 ≤ v ∧ v < M + N + 2 ∧ Dget D u (v - (M + 1)) ≤ d then
    (if u = M ∧ v = M + N + 1 then M else 1)
  else if u = M + N + 2 ∧ v < M then 1
  else if u = M + N + 2 ∧ v = M then M
  else if M + 1 ≤ u ∧ u < M + N + 1 ∧ v = M + N + 3 then 1
  else if u = M + N + 1 ∧ v = M + N + 3 then N
  else 0

/-- The feasibility test of one binary-search probe:
`M + N == graph.OptimalFlow()` for the graph at threshold `d`. -/
def probeOK (D : List (List ℚ)) (M N : ℕ) (d : ℚ) : Prop :=
  MaxFlowEq (capFun D M N d) (M + N + 4) (M + N + 2) (M + N + 3) ((M : ℤ) + N)

instance probeOKdec (D : List (List ℚ)) (M N : ℕ) (d : ℚ) :
    Decidable (probeOK D M N d) := by
  unfold probeOK; infer_instance

/-- The binary-search loop of the source (scalar result).  Each iteration
probes `ds[idx]` with `idx = len(ds) // 2` (via `bisect_left` on
`range(len(ds))`, or 0 when only one candidate remains); a feasible probe
records the candidate and keeps the strictly smaller ones (`ds[0:idx]`), an
infeasible one keeps the strictly larger ones (`ds[idx+1:]`).  The list
shrinks every iteration, so fuel equal to the initial length makes the
recursion structural without changing the result. -/
def searchLoop (D : List (List ℚ)) (M N : ℕ) : ℕ → List ℚ → ℚ → ℚ
  | 0, _, bdist => bdist
  | _ + 1, [], bdist => bdist
  | fuel + 1, d0 :: rest, bdist =>
    let ds := d0 :: rest
    let idx := if 1 < ds.length then ds.length / 2 else 0
    let d := ds.getD idx 0
    if probeOK D M N d ∧ d ≤ bdist then searchLoop D M N fuel (ds.take idx) d
    else searchLoop D M N fuel (ds.drop (idx + 1)) bdist

/-- The full pipeline of `multi_bottleneck(dgm1, dgm2)` (scalar result):
filter both diagrams, build the augmented cost matrix (`none` on the
broadcast error when the sizes differ), take the sorted distinct entries
minus the largest, read the initial `bdist = ds[-1]` (`none` on the
`IndexError` when that list is empty), and run the binary search. -/
def multi_bottleneck (dgm1 dgm2 : List CPt) : Option ℚ :=
  match toRatD (prep dgm1).1, toRatD (prep dgm2).1 with
  | some S, some T =>
    match buildD S T with
    | some D =>
      let ds := dsOf D
      match ds.getLast? with
      | some b0 => some (searchLoop D S.length T.length ds.length ds b0)
      | none => none
    | none => none
  | _, _ => none

/-- The arcs of the feasibility graph in the order the source adds them
(tail, head, capacity); the source reads the solved flow back per arc in
this order. -/
def arcList (D : List (List ℚ)) (M N : ℕ) (d : ℚ) : List (ℕ × ℕ × ℕ) :=
  ((List.range (M + 1)).flatMap fun i =>
    ((List.range (N + 1)).filter fun j => decide (Dget D i j ≤ d)).map fun j =>
      (i, j + (M + 1), if i = M ∧ j = N then M else 1))
  ++ ((List.range M).map fun i => (M + N + 2, i, 1))
  ++ ((List.range N).map fun j => (j + (M + 1), M + N + 3, 1))
  ++ [(M + N + 2, M, M), (M + N + 1, M + N + 3, N)]

/-- All assignments of an integer from `0` to its capacity to each arc. -/
def allAssign : List ℕ → List (List ℕ)
  | [] => [[]]
  | c :: cs => (List.range (c + 1)).flatMap fun x => (allAssign cs).map fun t => x :: t

/-- The per-arc-pair flow function induced by a per-arc assignment (the
arcs the source adds are pairwise distinct, so the sum has at most one
summand). -/
def flowOfAssign (arcs : List (ℕ × ℕ × ℕ)) (fs : List ℕ) : ℕ → ℕ → ℕ :=
  fun u v =>
    ((arcs.zip fs).filterMap fun p =>
      if p.1.1 = u ∧ p.1.2.1 = v then some p.2 else none).sum

/-- Modelled from the spec: the Max-Flow Oracle also returns one maximal
integral flow (spec section 4.3), read back per arc by the source.  Which
maximal flow the library returns is not specified; the model picks the
first conserving assignment of maximal value in a fixed enumeration of all
capacity-bounded per-arc assignments. -/
def chooseFlow (D : List (List ℚ)) (M N : ℕ) (d : ℚ) : ℕ → ℕ → ℕ :=
  let arcs := arcList D M N d
  let cap := capFun D M N d
  let K := M + N + 4
  let src := M + N + 2
  let snk := M + N + 3
  let cands := (allAssign (arcs.map fun a => a.2.2)).map (flowOfAssign arcs)
  let good := cands.filter fun f =>
    decide (consB cap K src snk f) &&
      cands.all fun f2 =>
        !(decide (consB cap K src snk f2)) ||
          decide (flowValue f2 K src ≤ flowValue f K src)
  match good.head? with
  | some f => f
  | none => fun _ _ => 0

/-- The matching dictionary built after each solve: for every arc with flow
exactly 1 whose tail is not the source and whose head is not the sink,
`res[tail] = head` (later writes overwrite earlier ones). -/
def resOf (arcs : List (ℕ × ℕ × ℕ)) (f : ℕ → ℕ → ℕ) (src snk : ℕ) :
    List (ℕ × ℕ) :=
  arcs.foldl (fun r a =>
    if f a.1 a.2.1 = 1 ∧ a.1 ≠ src ∧ a.2.1 ≠ snk then r ++ [(a.1, a.2.1)] else r) []

/-- Python dictionary lookup (`matching[i]`): the last value written for the
key, `none` (a `KeyError`) when the key is absent. -/
def dlookup (res : List (ℕ × ℕ)) (k : ℕ) : Option ℕ :=
  ((res.filter fun p => p.1 = k).getLast?).map fun p => p.2

/-- The binary-search loop with the matching dictionary threaded through,
exactly as the source does: the dictionary from the current solve replaces
the recorded one only when the probe is feasible. -/
def searchLoopM (D : List (List ℚ)) (M N : ℕ) :
    ℕ → List ℚ → ℚ → List (ℕ × ℕ) → ℚ × List (ℕ × ℕ)
  | 0, _, bdist, res => (bdist, res)
  | _ + 1, [], bdist, res => (bdist, res)
  | fuel + 1, d0 :: rest, bdist, res =>
    let ds := d0 :: rest
    let idx := if 1 < ds.length then ds.length / 2 else 0
    let d := ds.getD idx 0
    let f := chooseFlow D M N d
    let r := resOf (arcList D M N d) f (M + N + 2) (M + N + 3)
    if probeOK D M N d ∧ d ≤ bdist then searchLoopM D M N fuel (ds.take idx) d r
    else searchLoopM D M N fuel (ds.drop (idx + 1)) bdist res

/-- NumPy indexing into a length-`len` axis with a possibly negative index
(negative indices wrap once; anything outside `[-len, len)` is an
`IndexError`, modelled as `none`). -/
def npIdx (len : ℕ) (j : ℤ) : Option ℕ :=
  if 0 ≤ j ∧ j < (len : ℤ) then some j.toNat
  else if -(len : ℤ) ≤ j ∧ j < 0 then some (j + (len : ℤ)).toNat
  else none

/-- `D[i, j]` with a NumPy integer index `j` (possibly negative). -/
def npGet2 (D : List (List ℚ)) (i : ℕ) (j : ℤ) : Option ℚ :=
  if i < D.length then
    (npIdx (D.getD i []).length j).map fun k => (D.getD i []).getD k 0
  else none

/-- The reconstruction loop run when `matching=True`: for each
`i in range(M + N)` look up `matching[i]` (a `KeyError` aborts), subtract
`n1`, read `d = D[i, j]`, then report `(i, j-or-minus-1, d)` for a
diagram-1 node, skip a diagonal-to-diagonal pair, and report
`(-1, j, d)` otherwise. -/
def reconstructGo (D : List (List ℚ)) (M N n1 : ℕ) (res : List (ℕ × ℕ)) :
    List ℕ → Option (List (ℤ × ℤ × ℚ))
  | [] => some []
  | i :: rest =>
    match dlookup res i with
    | none => none
    | some h =>
      let j : ℤ := (h : ℤ) - (n1 : ℤ)
      match npGet2 D i j with
      | none => none
      | some dv =>
        if i < M then
          (reconstructGo D M N n1 res rest).map fun l =>
            ((i : ℤ), if (N : ℤ) ≤ j then -1 else j, dv) :: l
        else if (N : ℤ) ≤ j then reconstructGo D M N n1 res rest
        else (reconstructGo D M N n1 res rest).map fun l => (-1, j, dv) :: l

/-- The full pipeline of `multi_bottleneck(dgm1, dgm2, matching=True)`:
as `multi_bottleneck`, followed by the reconstruction loop on the recorded
matching dictionary. -/
def multi_bottleneck_matching (dgm1 dgm2 : List CPt) :
    Option (ℚ × List (ℤ × ℤ × ℚ)) :=
  match toRatD (prep dgm1).1, toRatD (prep dgm2).1 with
  | some S, some T =>
    match buildD S T with
    | some D =>
      let M := S.length
      let N := T.length
      let ds := dsOf D
      match ds.getLast? with
      | some b0 =>
        let br := searchLoopM D M N ds.length ds b0 []
        (reconstructGo D M N (N + 1) br.2 (List.range (M + N))).map fun l =>
          (br.1, l)
      | none => none
    | none => none
  | _, _ => none

/-- The node relabelling that exchanges the two sides of the network when
M = N: rows and columns swap blocks, and the source and sink swap. -/
def swapNode (M x : ℕ) : ℕ :=
  if x < M + 1 then x + (M + 1)
  else if x < 2 * M + 2 then x - (M + 1)
  else if x = 2 * M + 2 then 2 * M + 3
  else if x = 2 * M + 3 then 2 * M + 2
  else x

/-! ## Theorems -/

/-- C5: the spec expects `multi_bottleneck([[0,1],[5,8]], [[0,1.1]])` to
return the bottleneck distance 1.5; the code instead crashes with a NumPy
broadcast error while building the cost matrix, because the two filtered
diagrams have different sizes (M = 2, N = 1), so no distance is returned. -/
theorem multi_bottleneck_scenario3_crashes :
    multi_bottleneck [(Coord.fin 0, Coord.fin 1), (Coord.fin 5, Coord.fin 8)]
      [(Coord.fin 0, Coord.fin (11 / 10))] = none := by with_unfolding_all decide

/-- C2: the spec says row M of the augmented matrix holds the
half-persistences of diagram 2 and column N those of diagram 1; the code
has them swapped.  For `dgm1 = [[0,2]]`, `dgm2 = [[0,6]]` the built matrix
is `[[4, 3], [1, 0]]`: the extra-row entry `D[1, 0]` is 1, the
half-persistence of the diagram-1 point (0,2), not 3, the half-persistence
of the diagram-2 point (0,6) that the spec requires there. -/
theorem diag_row_holds_dgm1_persistence :
    buildD [((0 : ℚ), 2)] [((0 : ℚ), 6)] = some [[4, 3], [1, 0]]
    ∧ Dget (Dmat [((0 : ℚ), 2)] [((0 : ℚ), 6)]) 1 0 = halfPers ((0 : ℚ), 2)
    ∧ Dget (Dmat [((0 : ℚ), 2)] [((0 : ℚ), 6)]) 1 0 ≠ halfPers ((0 : ℚ), 6) := by
  with_unfolding_all decide

/-- C7: the spec claims distance(A, A) = 0 for any diagram A.  For
A = [[0, 0]] the cost matrix is identically zero, the candidate list
(distinct entries minus the largest) is empty, and `bdist = ds[-1]` raises
an `IndexError`, so the code crashes instead of returning 0; for a
non-degenerate diagram such as A = [[0, 1]] the identity does hold. -/
theorem multi_bottleneck_self_cases :
    multi_bottleneck [(Coord.fin 0, Coord.fin 0)] [(Coord.fin 0, Coord.fin 0)] = none
    ∧ multi_bottleneck [(Coord.fin 0, Coord.fin 1)] [(Coord.fin 0, Coord.fin 1)]
        = some 0 := by with_unfolding_all decide

/-- C8: the spec claims `multi_bottleneck([(b, d)], [])` = (d - b)/2 for
every finite point.  The concrete instance (0, 2) does return 1, but for
the point (-1, 1) the true answer (1 - (-1))/2 = 1 equals the largest
matrix entry, which the binary search excludes from its candidates, so the
code returns the never-verified initial value `ds[-1] = 0` instead. -/
theorem multi_bottleneck_vs_empty_cases :
    multi_bottleneck [(Coord.fin 0, Coord.fin 2)] [] = some 1
    ∧ multi_bottleneck [(Coord.fin (-1), Coord.fin 1)] [] = some 0
    ∧ (0 : ℚ) ≠ ((1 : ℚ) - (-1)) / 2 := by with_unfolding_all decide

/-- C1: the spec claims the returned threshold is the minimum d at which
the feasibility graph has max flow M + N, the excluded largest entry never
being needed.  For `dgm1 = [[0,2]]`, `dgm2 = [[0,4]]` the matrix is
`[[2, 2], [1, 0]]`; threshold 1 is infeasible and threshold 2 (the excluded
largest entry) is the true minimum feasible one, yet the code returns 1:
the initial `bdist = ds[-1]` is reported without ever having been found
feasible. -/
theorem multi_bottleneck_skips_needed_largest :
    multi_bottleneck [(Coord.fin 0, Coord.fin 2)] [(Coord.fin 0, Coord.fin 4)]
        = some 1
    ∧ Dmat [((0 : ℚ), 2)] [((0 : ℚ), 4)] = [[2, 2], [1, 0]]
    ∧ ¬ probeOK [[2, 2], [1, 0]] 1 1 1
    ∧ probeOK [[2, 2], [1, 0]] 1 1 2 := by with_unfolding_all decide

/-- Helper: how `prep` treats one diagram: it keeps exactly the points with
a finite (per `np.isfinite`) death coordinate, substitutes the placeholder
(0, 0) point when nothing survives, and warns exactly when some point was
dropped. -/
theorem prep_spec (dgm : List CPt) :
    (prep dgm).1 = (if dgm.filter (fun p => finCoord p.2) = []
        then [(Coord.fin 0, Coord.fin 0)] else dgm.filter fun p => finCoord p.2)
    ∧ ((prep dgm).2 = true ↔ ∃ p ∈ dgm, finCoord p.2 = false) := by
  unfold prep
  by_cases hd : dgm.length = 0
  · have hnil : dgm = [] := List.length_eq_zero.mp hd
    subst hnil
    simp
  · rw [if_neg hd]
    constructor
    · by_cases hf : (dgm.filter fun p => finCoord p.2).length = 0
      · rw [if_pos hf, if_pos (List.length_eq_zero.mp hf)]
      · rw [if_neg hf, if_neg fun h => hf (by rw [h]; rfl)]
    · by_cases hf : (dgm.filter fun p => finCoord p.2).length = 0
      · rw [if_pos hf]
        simp only [decide_eq_true_eq, List.length_filter_lt_length_iff_exists]
        constructor
        · rintro ⟨x, hx, hpx⟩; exact ⟨x, hx, by simpa using hpx⟩
        · rintro ⟨x, hx, hpx⟩; exact ⟨x, hx, by simp [hpx]⟩
      · rw [if_neg hf]
        simp only [decide_eq_true_eq, List.length_filter_lt_length_iff_exists]
        constructor
        · rintro ⟨x, hx, hpx⟩; exact ⟨x, hx, by simpa using hpx⟩
        · rintro ⟨x, hx, hpx⟩; exact ⟨x, hx, by simp [hpx]⟩

/-- C10: `multi_bottleneck` drops exactly the points whose death coordinate
is non-finite, warns per affected diagram (the first flag names `dgm1`, the
second `dgm2`), and substitutes the single point (0, 0) for a diagram left
with zero points (or empty from the start). -/
theorem multi_bottleneck_filter_warn_substitute (dgm1 dgm2 : List CPt) :
    (prep dgm1).1 = (if dgm1.filter (fun p => finCoord p.2) = []
        then [(Coord.fin 0, Coord.fin 0)] else dgm1.filter fun p => finCoord p.2)
    ∧ ((mbWarnings dgm1 dgm2).1 = true ↔ ∃ p ∈ dgm1, finCoord p.2 = false)
    ∧ ((mbWarnings dgm1 dgm2).2 = true ↔ ∃ p ∈ dgm2, finCoord p.2 = false) :=
  ⟨(prep_spec dgm1).1, (prep_spec dgm1).2, (prep_spec dgm2).2⟩

/-- Helper: successful coordinate conversion preserves the point count. -/
theorem toRatD_length : ∀ (l : List CPt) (S : List (ℚ × ℚ)),
    toRatD l = some S → S.length = l.length := by
  intro l
  induction l with
  | nil => intro S hS; cases hS; rfl
  | cons p r ih =>
    intro S hS
    unfold toRatD at hS
    cases hp : ptToRat p with
    | none => rw [hp] at hS; cases hS
    | some q =>
      cases hr : toRatD r with
      | none => rw [hp, hr] at hS; cases hS
      | some rest =>
        rw [hp, hr] at hS
        cases hS
        simpa using ih rest hr

/-- C3: whenever the filtered point counts differ, the cost-matrix
construction raises (NumPy cannot broadcast the persistence vectors into
slices of the other length), so `multi_bottleneck` returns no distance,
with or without `matching=True`; it can only return normally when M = N. -/
theorem multi_bottleneck_none_of_mismatch (A B : List CPt) (h : Mof A ≠ Mof B) :
    multi_bottleneck A B = none ∧ multi_bottleneck_matching A B = none := by
  unfold multi_bottleneck multi_bottleneck_matching
  cases h1 : toRatD (prep A).1 with
  | none => exact ⟨rfl, rfl⟩
  | some S =>
    cases h2 : toRatD (prep B).1 with
    | none => exact ⟨rfl, rfl⟩
    | some T =>
      have hb : buildD S T = none := by
        unfold buildD
        rw [if_neg]
        rw [toRatD_length _ _ h1, toRatD_length _ _ h2]
        exact h
      simp [hb]

/-- Witness for C3 at the concrete sizes M = 2, N = 1. -/
theorem multi_bottleneck_none_of_mismatch_witness :
    multi_bottleneck [(Coord.fin 0, Coord.fin 1), (Coord.fin 2, Coord.fin 3)]
        [(Coord.fin 0, Coord.fin 1)] = none
    ∧ multi_bottleneck_matching [(Coord.fin 0, Coord.fin 1), (Coord.fin 2, Coord.fin 3)]
        [(Coord.fin 0, Coord.fin 1)] = none :=
  multi_bottleneck_none_of_mismatch _ _ (by decide)

/-- Helper: raising the threshold only adds arcs; every capacity is
monotone in `d`. -/
theorem capFun_mono (D : List (List ℚ)) (M N : ℕ) {d d2 : ℚ} (h : d ≤ d2)
    (u v : ℕ) : capFun D M N d u v ≤ capFun D M N d2 u v := by
  unfold capFun
  by_cases h1 : u < M + 1 ∧ M + 1 ≤ v ∧ v < M + N + 2 ∧ Dget D u (v - (M + 1)) ≤ d
  · have h2 : u < M + 1 ∧ M + 1 ≤ v ∧ v < M + N + 2 ∧ Dget D u (v - (M + 1)) ≤ d2 :=
      ⟨h1.1, h1.2.1, h1.2.2.1, le_trans h1.2.2.2 h⟩
    rw [if_pos h1, if_pos h2]
  · rw [if_neg h1]
    by_cases h2 : u < M + 1 ∧ M + 1 ≤ v ∧ v < M + N + 2 ∧ Dget D u (v - (M + 1)) ≤ d2
    · rw [if_pos h2]
      have hu : u < M + 1 := h2.1
      have hv1 : M + 1 ≤ v := h2.2.1
      have hv2 : v < M + N + 2 := h2.2.2.1
      split_ifs <;> omega
    · rw [if_neg h2]

/-- Helper: the capacities out of the source node. -/
theorem capFun_src_eq (D : List (List ℚ)) (M N : ℕ) (d : ℚ) (v : ℕ) :
    capFun D M N d (M + N + 2) v
      = (if v < M then 1 else 0) + (if v = M then M else 0) := by
  unfold capFun
  rw [if_neg (by rintro ⟨h, -, -, -⟩; omega :
    ¬(M + N + 2 < M + 1 ∧ M + 1 ≤ v ∧ v < M + N + 2
      ∧ Dget D (M + N + 2) (v - (M + 1)) ≤ d))]
  split_ifs <;> omega

/-- Helper: the capacities into the sink node. -/
theorem capFun_snk_eq (D : List (List ℚ)) (M N : ℕ) (d : ℚ) (u : ℕ) :
    capFun D M N d u (M + N + 3)
      = (if M + 1 ≤ u ∧ u < M + N + 1 then 1 else 0)
        + (if u = M + N + 1 then N else 0) := by
  unfold capFun
  rw [if_neg (by rintro ⟨-, -, h, -⟩; omega :
    ¬(u < M + 1 ∧ M + 1 ≤ M + N + 3 ∧ M + N + 3 < M + N + 2
      ∧ Dget D u (M + N + 3 - (M + 1)) ≤ d))]
  split_ifs <;> omega

/-- Helper: total capacity out of the source is 2M. -/
theorem capFun_src_row_sum (D : List (List ℚ)) (M N : ℕ) (d : ℚ) :
    ∑ v ∈ Finset.range (M + N + 4), capFun D M N d (M + N + 2) v = 2 * M := by
  have hcongr : ∑ v ∈ Finset.range (M + N + 4), capFun D M N d (M + N + 2) v
      = ∑ v ∈ Finset.range (M + N + 4),
          ((if v ∈ Finset.range M then 1 else 0) + (if v = M then M else 0)) := by
    refine Finset.sum_congr rfl fun v _ => ?_
    rw [capFun_src_eq]
    congr 1
    by_cases hv : v < M
    · rw [if_pos hv, if_pos (Finset.mem_range.mpr hv)]
    · rw [if_neg hv, if_neg (fun hm => hv (Finset.mem_range.mp hm))]
  rw [hcongr, Finset.sum_add_distrib, Finset.sum_ite_mem, Finset.sum_ite_eq',
    if_pos (Finset.mem_range.mpr (by omega : M < M + N + 4)),
    Finset.inter_eq_right.mpr (Finset.range_subset.mpr (by omega : M ≤ M + N + 4))]
  rw [Finset.sum_const, Finset.card_range, smul_eq_mul, mul_one]
  omega

/-- Helper: total capacity into the sink is 2N. -/
theorem capFun_snk_col_sum (D : List (List ℚ)) (M N : ℕ) (d : ℚ) :
    ∑ u ∈ Finset.range (M + N + 4), capFun D M N d u (M + N + 3) = 2 * N := by
  have hcongr : ∑ u ∈ Finset.range (M + N + 4), capFun D M N d u (M + N + 3)
      = ∑ u ∈ Finset.range (M + N + 4),
          ((if u ∈ Finset.Ico (M + 1) (M + N + 1) then 1 else 0)
            + (if u = M + N + 1 then N else 0)) := by
    refine Finset.sum_congr rfl fun u _ => ?_
    rw [capFun_snk_eq]
    congr 1
    by_cases hu : M + 1 ≤ u ∧ u < M + N + 1
    · rw [if_pos hu, if_pos (Finset.mem_Ico.mpr hu)]
    · rw [if_neg hu, if_neg (fun hm => hu (Finset.mem_Ico.mp hm))]
  rw [hcongr, Finset.sum_add_distrib, Finset.sum_ite_mem, Finset.sum_ite_eq',
    if_pos (Finset.mem_range.mpr (by omega : M + N + 1 < M + N + 4)),
    Finset.inter_eq_right.mpr (by
      intro x hx
      simp only [Finset.mem_Ico] at hx
      exact Finset.mem_range.mpr (by omega))]
  rw [Finset.sum_const, Nat.card_Ico, smul_eq_mul, mul_one]
  omega

/-- Helper: a flow value never exceeds the total outgoing flow at the
source. -/
theorem flowValue_le_outS (f : ℕ → ℕ → ℕ) (K src : ℕ) :
    flowValue f K src ≤ (outS f K src : ℤ) := by
  unfold flowValue
  have h := Int.ofNat_nonneg (inS f K src)
  omega

/-- Helper: for a flow, the net value at the source equals the net inflow
at the sink (global conservation). -/
theorem flowValue_eq_snk (cap : ℕ → ℕ → ℕ) (K src snk : ℕ) (f : ℕ → ℕ → ℕ)
    (hf : IsFlow cap K src snk f) (hs : src < K) (ht : snk < K)
    (hne : src ≠ snk) :
    flowValue f K src = (inS f K snk : ℤ) - (outS f K snk : ℤ) := by
  have htot : ∑ v ∈ Finset.range K, ((outS f K v : ℤ) - (inS f K v : ℤ)) = 0 := by
    rw [Finset.sum_sub_distrib]
    unfold outS inS
    push_cast
    rw [Finset.sum_comm]
    exact sub_self _
  have hmem1 : src ∈ Finset.range K := Finset.mem_range.mpr hs
  have hmem2 : snk ∈ (Finset.range K).erase src :=
    Finset.mem_erase.mpr ⟨Ne.symm hne, Finset.mem_range.mpr ht⟩
  have hzero : ∑ v ∈ ((Finset.range K).erase src).erase snk,
      ((outS f K v : ℤ) - (inS f K v : ℤ)) = 0 := by
    refine Finset.sum_eq_zero fun v hv => ?_
    have h1 := Finset.mem_erase.mp hv
    have h2 := Finset.mem_erase.mp h1.2
    rw [hf.2.2 v (Finset.mem_range.mp h2.2) h2.1 h1.1]
    exact sub_self _
  have e2 := Finset.add_sum_erase ((Finset.range K).erase src)
    (fun v => ((outS f K v : ℤ) - (inS f K v : ℤ))) hmem2
  have e1 := Finset.add_sum_erase (Finset.range K)
    (fun v => ((outS f K v : ℤ) - (inS f K v : ℤ))) hmem1
  rw [hzero] at e2
  rw [← e2] at e1
  rw [htot] at e1
  simp only [add_zero] at e1
  unfold flowValue
  linarith [e1]

/-- C9: monotone feasibility.  If the feasibility graph built from `D` at
threshold `d` admits a maximum flow of value M + N, then so does the graph
at any larger threshold: raising the threshold only adds point-to-point
arcs, and M + N saturates both the source and the sink capacities, so the
maximum cannot grow past it. -/
theorem feasibility_monotone (D : List (List ℚ)) (M N : ℕ) (d d2 : ℚ)
    (hd : d < d2) (h : probeOK D M N d) : probeOK D M N d2 := by
  obtain ⟨⟨f, hf, hv⟩, -⟩ := h
  have hmono := capFun_mono D M N (le_of_lt hd)
  have hf2 : IsFlow (capFun D M N d2) (M + N + 4) (M + N + 2) (M + N + 3) f :=
    ⟨fun u v => le_trans (hf.1 u v) (hmono u v), hf.2.1, hf.2.2⟩
  have houtb : ∀ g, IsFlow (capFun D M N d2) (M + N + 4) (M + N + 2) (M + N + 3) g →
      flowValue g (M + N + 4) (M + N + 2) ≤ 2 * M := by
    intro g hg
    refine le_trans (flowValue_le_outS g _ _) ?_
    have hb : outS g (M + N + 4) (M + N + 2)
        ≤ ∑ v ∈ Finset.range (M + N + 4), capFun D M N d2 (M + N + 2) v := by
      unfold outS
      exact Finset.sum_le_sum fun v _ => hg.1 _ v
    rw [capFun_src_row_sum] at hb
    exact_mod_cast hb
  have hinb : ∀ g, IsFlow (capFun D M N d2) (M + N + 4) (M + N + 2) (M + N + 3) g →
      flowValue g (M + N + 4) (M + N + 2) ≤ 2 * N := by
    intro g hg
    rw [flowValue_eq_snk _ _ _ _ _ hg (by omega) (by omega) (by omega)]
    have h1 : inS g (M + N + 4) (M + N + 3)
        ≤ ∑ u ∈ Finset.range (M + N + 4), capFun D M N d2 u (M + N + 3) := by
      unfold inS
      exact Finset.sum_le_sum fun u _ => hg.1 u _
    rw [capFun_snk_col_sum] at h1
    have h2 := Int.ofNat_nonneg (outS g (M + N + 4) (M + N + 3))
    have h3 : (inS g (M + N + 4) (M + N + 3) : ℤ) ≤ 2 * N := by exact_mod_cast h1
    omega
  have hfd : IsFlow (capFun D M N d) (M + N + 4) (M + N + 2) (M + N + 3) f := hf
  have hMN : M = N := by
    have hA : flowValue f (M + N + 4) (M + N + 2) ≤ 2 * M := houtb f hf2
    have hB : flowValue f (M + N + 4) (M + N + 2) ≤ 2 * N := hinb f hf2
    rw [hv] at hA hB
    omega
  refine ⟨⟨f, hf2, hv⟩, fun g hg => ?_⟩
  calc flowValue g (M + N + 4) (M + N + 2) ≤ 2 * M := houtb g hg
  _ = (M : ℤ) + N := by rw [hMN]; ring

/-- Witness for C9 at D = [[0, 1/2], [1/2, 0]], d = 0, d2 = 1. -/
theorem feasibility_monotone_witness :
    probeOK [[0, 1/2], [1/2, 0]] 1 1 1 :=
  feasibility_monotone [[0, 1/2], [1/2, 0]] 1 1 0 1
    (by with_unfolding_all decide) (by with_unfolding_all decide)

/-- Helper: every arc whose tail is not the source and whose head is not
the sink is a matrix arc, so its tail is a row node (index at most M). -/
theorem arcList_tails (D : List (List ℚ)) (M N : ℕ) (d : ℚ) :
    ∀ a ∈ arcList D M N d, a.1 ≠ M + N + 2 → a.2.1 ≠ M + N + 3 → a.1 < M + 1 := by
  intro a ha hsrc hsnk
  unfold arcList at ha
  rw [List.mem_append] at ha
  rcases ha with ha | ha
  · rw [List.mem_append] at ha
    rcases ha with ha | ha
    · rw [List.mem_append] at ha
      rcases ha with ha | ha
      · rw [List.mem_flatMap] at ha
        obtain ⟨i, hi, hmem⟩ := ha
        rw [List.mem_map] at hmem
        obtain ⟨j, -, hj⟩ := hmem
        rw [← hj]
        exact List.mem_range.mp hi
      · rw [List.mem_map] at ha
        obtain ⟨i, -, hi⟩ := ha
        rw [← hi] at hsrc
        exact absurd rfl hsrc
    · rw [List.mem_map] at ha
      obtain ⟨j, -, hj⟩ := ha
      rw [← hj] at hsnk
      exact absurd rfl hsnk
  · rcases List.mem_pair.mp ha with ha | ha <;> rw [ha] at hsrc hsnk
    · exact absurd rfl hsrc
    · exact absurd rfl hsnk

/-- Helper: the fold that builds the matching dictionary only ever records
tails satisfying the arc-tail property. -/
theorem resOf_fold_keys (f : ℕ → ℕ → ℕ) (src snk : ℕ) (P : ℕ → Prop) :
    ∀ (arcs : List (ℕ × ℕ × ℕ)),
      (∀ a ∈ arcs, a.1 ≠ src → a.2.1 ≠ snk → P a.1) →
      ∀ acc : List (ℕ × ℕ), (∀ p ∈ acc, P p.1) →
      ∀ p ∈ List.foldl (fun r a =>
          if f a.1 a.2.1 = 1 ∧ a.1 ≠ src ∧ a.2.1 ≠ snk
          then r ++ [(a.1, a.2.1)] else r) acc arcs, P p.1 := by
  intro arcs
  induction arcs with
  | nil => intro _ acc hacc p hp; exact hacc p hp
  | cons a rest ih =>
    intro harcs acc hacc p hp
    rw [List.foldl_cons] at hp
    by_cases hc : f a.1 a.2.1 = 1 ∧ a.1 ≠ src ∧ a.2.1 ≠ snk
    · rw [if_pos hc] at hp
      refine ih (fun b hb => harcs b (List.mem_cons_of_mem a hb)) _ ?_ p hp
      intro q hq
      rw [List.mem_append] at hq
      rcases hq with hq | hq
      · exact hacc q hq
      · rw [List.mem_singleton] at hq
        rw [hq]
        exact harcs a (List.mem_cons_self a rest) hc.2.1 hc.2.2
    · rw [if_neg hc] at hp
      exact ih (fun b hb => harcs b (List.mem_cons_of_mem a hb)) acc hacc p hp

/-- Helper: all keys of the matching dictionary built from a solve are row
nodes. -/
theorem resOf_keys (D : List (List ℚ)) (M N : ℕ) (d : ℚ) (f : ℕ → ℕ → ℕ) :
    ∀ p ∈ resOf (arcList D M N d) f (M + N + 2) (M + N + 3), p.1 < M + 1 := by
  intro p hp
  exact resOf_fold_keys f (M + N + 2) (M + N + 3) (fun k => k < M + 1)
    (arcList D M N d) (arcList_tails D M N d) [] (by intro q hq; cases hq) p hp

/-- Helper: looking up a key larger than every recorded key fails (the
`KeyError`). -/
theorem dlookup_none (res : List (ℕ × ℕ)) (k0 k : ℕ)
    (hres : ∀ p ∈ res, p.1 < k0) (hk : k0 ≤ k) : dlookup res k = none := by
  unfold dlookup
  have hfil : res.filter (fun p => decide (p.1 = k)) = [] := by
    rw [List.filter_eq_nil_iff]
    intro a ha
    simp only [decide_eq_true_eq]
    intro heq
    have := hres a ha
    omega
  rw [hfil]
  rfl

/-- Helper: the matching dictionary the search loop returns only holds row
node keys, whatever the flows were. -/
theorem searchLoopM_keys (D : List (List ℚ)) (M N : ℕ) :
    ∀ (fuel : ℕ) (ds : List ℚ) (b : ℚ) (res : List (ℕ × ℕ)),
      (∀ p ∈ res, p.1 < M + 1) →
      ∀ p ∈ (searchLoopM D M N fuel ds b res).2, p.1 < M + 1 := by
  intro fuel
  induction fuel with
  | zero => intro ds b res hres p hp; exact hres p hp
  | succ fuel ih =>
    intro ds b res hres p hp
    cases ds with
    | nil => exact hres p hp
    | cons d0 rest =>
      rw [searchLoopM] at hp
      by_cases hc : probeOK D M N ((d0 :: rest).getD
          (if 1 < (d0 :: rest).length then (d0 :: rest).length / 2 else 0) 0)
          ∧ (d0 :: rest).getD
            (if 1 < (d0 :: rest).length then (d0 :: rest).length / 2 else 0) 0 ≤ b
      · rw [if_pos hc] at hp
        exact ih _ _ _ (resOf_keys D M N _ _) p hp
      · rw [if_neg hc] at hp
        exact ih _ _ _ hres p hp

/-- Helper: the reconstruction loop aborts with `none` as soon as any index
it visits is missing from the dictionary. -/
theorem reconstructGo_none (D : List (List ℚ)) (M N n1 : ℕ)
    (res : List (ℕ × ℕ)) :
    ∀ (l : List ℕ) (i : ℕ), i ∈ l → dlookup res i = none →
      reconstructGo D M N n1 res l = none := by
  intro l
  induction l with
  | nil => intro i hi; cases hi
  | cons a rest ih =>
    intro i hi hnone
    rcases List.mem_cons.mp hi with heq | hmem
    · rw [← heq]
      unfold reconstructGo
      rw [hnone]
    · unfold reconstructGo
      cases ha : dlookup res a with
      | none => rfl
      | some h =>
        cases hg : npGet2 D a ((h : ℤ) - (n1 : ℤ)) with
        | none =>
          dsimp only
          rw [hg]
        | some dv =>
          dsimp only
          rw [hg, ih i hmem hnone]
          dsimp only
          by_cases hc : a < M
          · rw [if_pos hc]
            rfl
          · rw [if_neg hc]
            by_cases hc2 : (N : ℤ) ≤ (h : ℤ) - (n1 : ℤ)
            · rw [if_pos hc2]
            · rw [if_neg hc2]
              rfl

/-- C4: with `matching=True` the reconstruction loop iterates
`i in range(M + N)`, but the matching dictionary only ever holds row-node
keys (at most M), so as soon as N is at least 2 the lookup `matching[M+1]`
raises a `KeyError` and no matching is returned at all; the claimed output
is only produced in the degenerate case M = N = 1. -/
theorem multi_bottleneck_matching_keyerror (A B : List CPt)
    (h1 : Mof A = Mof B) (h2 : 2 ≤ Mof B) :
    multi_bottleneck_matching A B = none := by
  unfold multi_bottleneck_matching
  cases hA : toRatD (prep A).1 with
  | none => rfl
  | some S =>
    cases hB : toRatD (prep B).1 with
    | none => rfl
    | some T =>
      have hS : S.length = Mof A := toRatD_length _ _ hA
      have hT : T.length = Mof B := toRatD_length _ _ hB
      have hlen : S.length = T.length := by rw [hS, hT, h1]
      have hb : buildD S T = some (Dmat S T) := by
        unfold buildD; rw [if_pos hlen]
      simp only [hb]
      cases hds : (dsOf (Dmat S T)).getLast? with
      | none => rfl
      | some b0 =>
        have hkeys := searchLoopM_keys (Dmat S T) S.length T.length
          (dsOf (Dmat S T)).length (dsOf (Dmat S T)) b0 []
          (by intro p hp; cases hp)
        have hlook : dlookup (searchLoopM (Dmat S T) S.length T.length
            (dsOf (Dmat S T)).length (dsOf (Dmat S T)) b0 []).2
            (S.length + 1) = none :=
          dlookup_none _ (S.length + 1) (S.length + 1) hkeys (le_refl _)
        have hmem : S.length + 1 ∈ List.range (S.length + T.length) := by
          rw [List.mem_range]
          have : 2 ≤ T.length := by rw [hT]; exact h2
          omega
        dsimp only
        rw [reconstructGo_none (Dmat S T) S.length T.length (T.length + 1) _ _
          (S.length + 1) hmem hlook]
        rfl

/-- Witness for C4 at two equal two-point diagrams (M = N = 2). -/
theorem multi_bottleneck_matching_keyerror_witness :
    multi_bottleneck_matching
      [(Coord.fin 0, Coord.fin 1), (Coord.fin 0, Coord.fin 2)]
      [(Coord.fin 0, Coord.fin 1), (Coord.fin 0, Coord.fin 2)] = none :=
  multi_bottleneck_matching_keyerror _ _ (by decide) (by decide)

/-- Helper: indexing a row of the form `body ++ [lastv]`. -/
theorem row_getD (row : List ℚ) (lastv : ℚ) (Tlen j : ℕ)
    (hrow : row.length = Tlen) :
    ((row ++ [lastv]).getD j 0)
      = if j < Tlen then row.getD j 0 else if j = Tlen then lastv else 0 := by
  rw [List.getD_eq_getElem?_getD, List.getElem?_append]
  by_cases hj : j < Tlen
  · rw [if_pos (by rw [hrow]; exact hj), if_pos hj, List.getD_eq_getElem?_getD]
  · rw [if_neg (by rw [hrow]; exact hj), if_neg hj]
    by_cases hj2 : j = Tlen
    · rw [if_pos hj2]
      have h0 : j - row.length = 0 := by omega
      rw [h0]
      rfl
    · rw [if_neg hj2]
      have hnone : [lastv][j - row.length]? = none :=
        List.getElem?_eq_none (by simp; omega)
      rw [hnone]
      rfl

/-- Helper: the rows of the augmented matrix. -/
theorem Dmat_row (S T : List (ℚ × ℚ)) (i : ℕ) :
    (Dmat S T).getD i []
      = if i < S.length then
          ((List.range T.length).map fun j =>
            linfDist (S.getD i (0, 0)) (T.getD j (0, 0)))
            ++ [halfPers (T.getD i (0, 0))]
        else if i = S.length then
          ((List.range T.length).map fun j => halfPers (S.getD j (0, 0))) ++ [0]
        else [] := by
  unfold Dmat
  rw [List.getD_eq_getElem?_getD, List.getElem?_append]
  by_cases hi : i < S.length
  · rw [if_pos (by simp [hi]), if_pos hi, List.getElem?_map, List.getElem?_range hi]
    rfl
  · rw [if_neg (by simp [hi]), if_neg hi]
    by_cases hi2 : i = S.length
    · rw [if_pos hi2]
      have h0 : i - ((List.range S.length).map fun i =>
          ((List.range T.length).map fun j =>
            linfDist (S.getD i (0, 0)) (T.getD j (0, 0)))
            ++ [halfPers (T.getD i (0, 0))]).length = 0 := by
        simp
        omega
      rw [h0]
      rfl
    · rw [if_neg hi2]
      have hnone : [((List.range T.length).map fun j =>
          halfPers (S.getD j (0, 0))) ++ [0]][i - ((List.range S.length).map fun i =>
          ((List.range T.length).map fun j =>
            linfDist (S.getD i (0, 0)) (T.getD j (0, 0)))
            ++ [halfPers (T.getD i (0, 0))]).length]? = none := by
        apply List.getElem?_eq_none
        simp
        omega
      rw [hnone]
      rfl

/-- Helper: a closed formula for the entries of the augmented matrix. -/
theorem Dget_Dmat (S T : List (ℚ × ℚ)) (i j : ℕ) :
    Dget (Dmat S T) i j =
      if i < S.length then
        (if j < T.length then linfDist (S.getD i (0, 0)) (T.getD j (0, 0))
         else if j = T.length then halfPers (T.getD i (0, 0)) else 0)
      else if i = S.length then
        (if j < T.length then halfPers (S.getD j (0, 0)) else 0)
      else 0 := by
  unfold Dget
  rw [Dmat_row]
  by_cases hi : i < S.length
  · rw [if_pos hi, if_pos hi, row_getD _ _ T.length j (by simp)]
    by_cases hj : j < T.length
    · rw [if_pos hj, if_pos hj, List.getD_eq_getElem?_getD, List.getElem?_map,
        List.getElem?_range hj]
      rfl
    · rw [if_neg hj, if_neg hj]
  · rw [if_neg hi, if_neg hi]
    by_cases hi2 : i = S.length
    · rw [if_pos hi2, if_pos hi2, row_getD _ _ T.length j (by simp)]
      by_cases hj : j < T.length
      · rw [if_pos hj, if_pos hj, List.getD_eq_getElem?_getD, List.getElem?_map,
          List.getElem?_range hj]
        rfl
      · rw [if_neg hj, if_neg hj]
        by_cases hj2 : j = T.length
        · rw [if_pos hj2]
        · rw [if_neg hj2]
    · rw [if_neg hi2, if_neg hi2]
      rfl

/-- Helper: the L-infinity distance is symmetric. -/
theorem linfDist_symm (p q : ℚ × ℚ) : linfDist p q = linfDist q p := by
  unfold linfDist
  rw [abs_sub_comm, abs_sub_comm p.2 q.2]

/-- Helper: swapping the two diagrams transposes the augmented matrix
(this holds entrywise without any size assumption, because the source puts
the FIRST diagram's persistences in the extra row and the SECOND diagram's
in the extra column). -/
theorem Dget_Dmat_swap (S T : List (ℚ × ℚ)) (i j : ℕ) :
    Dget (Dmat T S) i j = Dget (Dmat S T) j i := by
  rw [Dget_Dmat, Dget_Dmat]
  split_ifs <;> first
    | rfl
    | exact linfDist_symm _ _

/-- Helper: which values occur in the flattened augmented matrix. -/
theorem mem_flatten_Dmat (S T : List (ℚ × ℚ)) (x : ℚ) :
    x ∈ (Dmat S T).flatten
      ↔ ∃ i ≤ S.length, ∃ j ≤ T.length, Dget (Dmat S T) i j = x := by
  constructor
  · intro hx
    rw [List.mem_flatten] at hx
    obtain ⟨row, hrow, hxrow⟩ := hx
    unfold Dmat at hrow
    rw [List.mem_append] at hrow
    rcases hrow with hrow | hrow
    · rw [List.mem_map] at hrow
      obtain ⟨i, hi, hrowi⟩ := hrow
      rw [List.mem_range] at hi
      rw [← hrowi, List.mem_append] at hxrow
      rcases hxrow with hxm | hxl
      · rw [List.mem_map] at hxm
        obtain ⟨j, hj, hxj⟩ := hxm
        rw [List.mem_range] at hj
        refine ⟨i, le_of_lt hi, j, le_of_lt hj, ?_⟩
        rw [Dget_Dmat, if_pos hi, if_pos hj, hxj]
      · rw [List.mem_singleton] at hxl
        refine ⟨i, le_of_lt hi, T.length, le_refl _, ?_⟩
        rw [Dget_Dmat, if_pos hi, if_neg (lt_irrefl _), if_pos rfl, hxl]
    · rw [List.mem_singleton] at hrow
      rw [hrow, List.mem_append] at hxrow
      rcases hxrow with hxm | hxl
      · rw [List.mem_map] at hxm
        obtain ⟨j, hj, hxj⟩ := hxm
        rw [List.mem_range] at hj
        refine ⟨S.length, le_refl _, j, le_of_lt hj, ?_⟩
        rw [Dget_Dmat, if_neg (lt_irrefl _), if_pos rfl, if_pos hj, hxj]
      · rw [List.mem_singleton] at hxl
        refine ⟨S.length, le_refl _, T.length, le_refl _, ?_⟩
        rw [Dget_Dmat, if_neg (lt_irrefl _), if_pos rfl,
          if_neg (lt_irrefl _), hxl]
  · rintro ⟨i, hi, j, hj, hx⟩
    rw [List.mem_flatten]
    rcases lt_or_eq_of_le hi with hi1 | hi1
    · refine ⟨((List.range T.length).map fun j =>
        linfDist (S.getD i (0, 0)) (T.getD j (0, 0)))
        ++ [halfPers (T.getD i (0, 0))], ?_, ?_⟩
      · unfold Dmat
        refine List.mem_append_left _ (List.mem_map.mpr ⟨i, List.mem_range.mpr hi1, rfl⟩)
      · rcases lt_or_eq_of_le hj with hj1 | hj1
        · refine List.mem_append_left _ (List.mem_map.mpr ⟨j, List.mem_range.mpr hj1, ?_⟩)
          rw [Dget_Dmat, if_pos hi1, if_pos hj1] at hx
          exact hx
        · refine List.mem_append_right _ (List.mem_singleton.mpr ?_)
          rw [Dget_Dmat, if_pos hi1, if_neg (by omega), if_pos hj1] at hx
          exact hx.symm
    · refine ⟨((List.range T.length).map fun j =>
        halfPers (S.getD j (0, 0))) ++ [0], ?_, ?_⟩
      · unfold Dmat
        exact List.mem_append_right _ (List.mem_singleton.mpr rfl)
      · rcases lt_or_eq_of_le hj with hj1 | hj1
        · refine List.mem_append_left _ (List.mem_map.mpr ⟨j, List.mem_range.mpr hj1, ?_⟩)
          rw [Dget_Dmat, if_neg (by omega), if_pos hi1, if_pos hj1] at hx
          exact hx
        · refine List.mem_append_right _ (List.mem_singleton.mpr ?_)
          rw [Dget_Dmat, if_neg (by omega), if_pos hi1, if_neg (by omega)] at hx
          exact hx.symm

/-- Helper: the two flattened matrices hold the same set of values. -/
theorem flatten_toFinset_swap (S T : List (ℚ × ℚ)) :
    (Dmat T S).flatten.dedup.toFinset = (Dmat S T).flatten.dedup.toFinset := by
  ext x
  simp only [List.mem_toFinset, List.mem_dedup, mem_flatten_Dmat]
  constructor
  · rintro ⟨i, hi, j, hj, hx⟩
    exact ⟨j, hj, i, hi, by rw [← Dget_Dmat_swap]; exact hx⟩
  · rintro ⟨i, hi, j, hj, hx⟩
    exact ⟨j, hj, i, hi, by rw [Dget_Dmat_swap]; exact hx⟩

/-- Helper: swapping the diagrams leaves the sorted candidate list of the
binary search unchanged. -/
theorem dsOf_swap (S T : List (ℚ × ℚ)) : dsOf (Dmat T S) = dsOf (Dmat S T) := by
  unfold dsOf
  congr 1
  apply List.eq_of_perm_of_sorted ?_ (List.sorted_insertionSort _ _)
    (List.sorted_insertionSort _ _)
  refine ((List.perm_insertionSort _ _).trans ?_).trans
    (List.perm_insertionSort _ _).symm
  exact List.perm_of_nodup_nodup_toFinset_eq (List.nodup_dedup _)
    (List.nodup_dedup _) (flatten_toFinset_swap S T)

/-- Helper: the five regions of the node relabelling and its value on
each. -/
theorem swapNode_cases (M x : ℕ) :
    (x < M + 1 ∧ swapNode M x = x + (M + 1)) ∨
    ((M + 1 ≤ x ∧ x < 2 * M + 2) ∧ swapNode M x = x - (M + 1)) ∨
    (x = 2 * M + 2 ∧ swapNode M x = 2 * M + 3) ∨
    (x = 2 * M + 3 ∧ swapNode M x = 2 * M + 2) ∨
    (2 * M + 4 ≤ x ∧ swapNode M x = x) := by
  unfold swapNode
  split_ifs <;> omega

/-- Helper: the node relabelling is an involution. -/
theorem swapNode_invol (M x : ℕ) : swapNode M (swapNode M x) = x := by
  unfold swapNode
  split_ifs <;> omega

/-- Helper: the node relabelling preserves the node range. -/
theorem swapNode_lt (M x : ℕ) : swapNode M x < 2 * M + 4 ↔ x < 2 * M + 4 := by
  unfold swapNode
  split_ifs <;> omega

set_option maxHeartbeats 2000000 in
/-- Helper: with M = N, the capacity function of the graph built from the
swapped diagrams is the reversed-and-relabelled capacity function of the
original graph. -/
theorem capFun_swap (S T : List (ℚ × ℚ)) (M : ℕ) (d : ℚ) (u v : ℕ) :
    capFun (Dmat T S) M M d u v
      = capFun (Dmat S T) M M d (swapNode M v) (swapNode M u) := by
  rcases swapNode_cases M u with ⟨hu, eu⟩ | ⟨hu, eu⟩ | ⟨hu, eu⟩ | ⟨hu, eu⟩ | ⟨hu, eu⟩ <;>
    rcases swapNode_cases M v with ⟨hv, ev⟩ | ⟨hv, ev⟩ | ⟨hv, ev⟩ | ⟨hv, ev⟩ | ⟨hv, ev⟩ <;>
      rw [eu, ev] <;> unfold capFun <;> first
    | (by_cases hq : Dget (Dmat T S) u (v - (M + 1)) ≤ d
       · have hq2 : Dget (Dmat S T) (v - (M + 1)) (u + (M + 1) - (M + 1)) ≤ d := by
           rw [Nat.add_sub_cancel, ← Dget_Dmat_swap]
           exact hq
         rw [if_pos (show v - (M + 1) < M + 1 ∧ M + 1 ≤ u + (M + 1)
               ∧ u + (M + 1) < M + M + 2
               ∧ Dget (Dmat S T) (v - (M + 1)) (u + (M + 1) - (M + 1)) ≤ d
             from ⟨by omega, by omega, by omega, hq2⟩),
           if_pos (show u < M + 1 ∧ M + 1 ≤ v ∧ v < M + M + 2
               ∧ Dget (Dmat T S) u (v - (M + 1)) ≤ d
             from ⟨hu, by omega, by omega, hq⟩)]
         split_ifs <;> omega
       · rw [if_neg (show ¬(v - (M + 1) < M + 1 ∧ M + 1 ≤ u + (M + 1)
               ∧ u + (M + 1) < M + M + 2
               ∧ Dget (Dmat S T) (v - (M + 1)) (u + (M + 1) - (M + 1)) ≤ d)
             from by
               rintro ⟨-, -, -, hc⟩
               rw [Nat.add_sub_cancel, ← Dget_Dmat_swap] at hc
               exact hq hc),
           if_neg (show ¬(u < M + 1 ∧ M + 1 ≤ v ∧ v < M + M + 2
               ∧ Dget (Dmat T S) u (v - (M + 1)) ≤ d)
             from by rintro ⟨-, -, -, hc⟩; exact hq hc)]
         split_ifs <;> omega)
    | (rw [if_neg (show ¬(u < M + 1 ∧ M + 1 ≤ v ∧ v < M + M + 2
          ∧ Dget (Dmat T S) u (v - (M + 1)) ≤ d)
        from by rintro ⟨h1, h2, h3, -⟩; omega)]
       split_ifs <;> omega)

/-- Helper: reindexing a sum over the node range by the relabelling. -/
theorem sum_swapNode (M : ℕ) (F : ℕ → ℕ) :
    ∑ u ∈ Finset.range (2 * M + 4), F (swapNode M u)
      = ∑ u ∈ Finset.range (2 * M + 4), F u := by
  refine Finset.sum_nbij' (fun a => swapNode M a) (fun a => swapNode M a)
    ?_ ?_ ?_ ?_ ?_
  · intro a ha
    exact Finset.mem_range.mpr ((swapNode_lt M a).mpr (Finset.mem_range.mp ha))
  · intro a ha
    exact Finset.mem_range.mpr ((swapNode_lt M a).mpr (Finset.mem_range.mp ha))
  · intro a _
    exact swapNode_invol M a
  · intro a _
    exact swapNode_invol M a
  · intro a _
    rfl

/-- Helper: the relabelling exchanges the source and the sink. -/
theorem swapNode_src (M : ℕ) : swapNode M (2 * M + 2) = 2 * M + 3 := by
  unfold swapNode
  split_ifs <;> omega

/-- Helper: the relabelling exchanges the sink and the source. -/
theorem swapNode_snk (M : ℕ) : swapNode M (2 * M + 3) = 2 * M + 2 := by
  unfold swapNode
  split_ifs <;> omega

/-- Helper: outflow of the reversed-and-relabelled flow is inflow of the
original at the relabelled node. -/
theorem outS_swapped (M : ℕ) (f : ℕ → ℕ → ℕ) (w : ℕ) :
    outS (fun u v => f (swapNode M v) (swapNode M u)) (2 * M + 4) w
      = inS f (2 * M + 4) (swapNode M w) := by
  unfold outS inS
  exact sum_swapNode M (fun u => f u (swapNode M w))

/-- Helper: inflow of the reversed-and-relabelled flow is outflow of the
original at the relabelled node. -/
theorem inS_swapped (M : ℕ) (f : ℕ → ℕ → ℕ) (w : ℕ) :
    inS (fun u v => f (swapNode M v) (swapNode M u)) (2 * M + 4) w
      = outS f (2 * M + 4) (swapNode M w) := by
  unfold outS inS
  exact sum_swapNode M (fun u => f (swapNode M w) u)

/-- Helper: reversing and relabelling a flow on the graph of (S, T) gives a
flow on the graph of (T, S). -/
theorem isFlow_swapped (S T : List (ℚ × ℚ)) (M : ℕ) (d : ℚ) (f : ℕ → ℕ → ℕ)
    (hf : IsFlow (capFun (Dmat S T) M M d) (2 * M + 4) (2 * M + 2) (2 * M + 3) f) :
    IsFlow (capFun (Dmat T S) M M d) (2 * M + 4) (2 * M + 2) (2 * M + 3)
      (fun u v => f (swapNode M v) (swapNode M u)) := by
  refine ⟨?_, ?_, ?_⟩
  · intro u v
    rw [capFun_swap]
    exact hf.1 _ _
  · intro u v huv
    refine hf.2.1 _ _ ?_
    rintro ⟨h1, h2⟩
    rw [swapNode_lt] at h1 h2
    exact huv ⟨h2, h1⟩
  · intro w hw hsrc hsnk
    rw [outS_swapped, inS_swapped]
    have hsw : swapNode M w < 2 * M + 4 := (swapNode_lt M w).mpr hw
    have hsw2 : swapNode M w ≠ 2 * M + 2 := by
      intro hc
      have hc2 := congrArg (swapNode M) hc
      rw [swapNode_invol, swapNode_src] at hc2
      exact hsnk hc2
    have hsw3 : swapNode M w ≠ 2 * M + 3 := by
      intro hc
      have hc2 := congrArg (swapNode M) hc
      rw [swapNode_invol, swapNode_snk] at hc2
      exact hsrc hc2
    exact (hf.2.2 _ hsw hsw2 hsw3).symm

/-- Helper: reversing and relabelling preserves the flow value. -/
theorem flowValue_swapped (S T : List (ℚ × ℚ)) (M : ℕ) (d : ℚ) (f : ℕ → ℕ → ℕ)
    (hf : IsFlow (capFun (Dmat S T) M M d) (2 * M + 4) (2 * M + 2) (2 * M + 3) f) :
    flowValue (fun u v => f (swapNode M v) (swapNode M u)) (2 * M + 4) (2 * M + 2)
      = flowValue f (2 * M + 4) (2 * M + 2) := by
  have h1 : flowValue (fun u v => f (swapNode M v) (swapNode M u))
      (2 * M + 4) (2 * M + 2)
      = (inS f (2 * M + 4) (2 * M + 3) : ℤ)
        - (outS f (2 * M + 4) (2 * M + 3) : ℤ) := by
    unfold flowValue
    rw [outS_swapped, inS_swapped, swapNode_src]
  rw [h1, flowValue_eq_snk _ _ _ _ f hf (by omega) (by omega) (by omega)]

/-- Helper: with M = N, swapping the two diagrams does not change
feasibility at any threshold. -/
theorem probeOK_swap (S T : List (ℚ × ℚ)) (M : ℕ) (d : ℚ) :
    probeOK (Dmat T S) M M d ↔ probeOK (Dmat S T) M M d := by
  have key : ∀ S2 T2 : List (ℚ × ℚ),
      probeOK (Dmat S2 T2) M M d → probeOK (Dmat T2 S2) M M d := by
    intro S2 T2 h
    unfold probeOK MaxFlowEq at h ⊢
    have e4 : M + M + 4 = 2 * M + 4 := by ring
    have e2 : M + M + 2 = 2 * M + 2 := by ring
    have e3 : M + M + 3 = 2 * M + 3 := by ring
    rw [e4, e2, e3] at h ⊢
    obtain ⟨⟨f, hf, hv⟩, hb⟩ := h
    constructor
    · exact ⟨fun u v => f (swapNode M v) (swapNode M u),
        isFlow_swapped S2 T2 M d f hf,
        by rw [flowValue_swapped S2 T2 M d f hf]; exact hv⟩
    · intro g hg
      have hg2 := isFlow_swapped T2 S2 M d g hg
      have hle := hb _ hg2
      rw [flowValue_swapped T2 S2 M d g hg] at hle
      exact hle
  exact ⟨key T S, key S T⟩

/-- Helper: with M = N the binary search runs identically on the swapped
matrix (same candidates, same feasibility at each probe). -/
theorem searchLoop_swap (S T : List (ℚ × ℚ)) (M : ℕ) :
    ∀ (fuel : ℕ) (ds : List ℚ) (b : ℚ),
      searchLoop (Dmat T S) M M fuel ds b = searchLoop (Dmat S T) M M fuel ds b := by
  intro fuel
  induction fuel with
  | zero => intro ds b; rfl
  | succ fuel ih =>
    intro ds b
    cases ds with
    | nil => rfl
    | cons d0 rest =>
      rw [searchLoop, searchLoop]
      by_cases hc : probeOK (Dmat S T) M M ((d0 :: rest).getD
          (if 1 < (d0 :: rest).length then (d0 :: rest).length / 2 else 0) 0)
          ∧ (d0 :: rest).getD
            (if 1 < (d0 :: rest).length then (d0 :: rest).length / 2 else 0) 0 ≤ b
      · have hc2 : probeOK (Dmat T S) M M ((d0 :: rest).getD
            (if 1 < (d0 :: rest).length then (d0 :: rest).length / 2 else 0) 0)
            ∧ (d0 :: rest).getD
              (if 1 < (d0 :: rest).length then (d0 :: rest).length / 2 else 0) 0 ≤ b :=
          ⟨(probeOK_swap S T M _).mpr hc.1, hc.2⟩
        rw [if_pos hc, if_pos hc2, ih]
      · have hc2 : ¬(probeOK (Dmat T S) M M ((d0 :: rest).getD
            (if 1 < (d0 :: rest).length then (d0 :: rest).length / 2 else 0) 0)
            ∧ (d0 :: rest).getD
              (if 1 < (d0 :: rest).length then (d0 :: rest).length / 2 else 0) 0 ≤ b) := by
          intro hc3
          exact hc ⟨(probeOK_swap S T M _).mp hc3.1, hc3.2⟩
        rw [if_neg hc, if_neg hc2, ih]

/-- C6: the scalar bottleneck distance is symmetric in its two diagram
arguments: swapping the diagrams transposes the cost matrix, leaves the
sorted candidate list unchanged, and reverses the feasibility network
without changing any maximum flow value, so every probe answers the same
and the search returns the same value (both calls also crash together:
on a size mismatch, or on an empty candidate list). -/
theorem multi_bottleneck_symm (A B : List CPt) :
    multi_bottleneck A B = multi_bottleneck B A := by
  unfold multi_bottleneck
  cases hA : toRatD (prep A).1 with
  | none => cases hB : toRatD (prep B).1 <;> rfl
  | some S =>
    cases hB : toRatD (prep B).1 with
    | none => rfl
    | some T =>
      by_cases hlen : S.length = T.length
      · have hb1 : buildD S T = some (Dmat S T) := by
          unfold buildD; rw [if_pos hlen]
        have hb2 : buildD T S = some (Dmat T S) := by
          unfold buildD; rw [if_pos hlen.symm]
        simp only [hb1, hb2]
        rw [dsOf_swap S T]
        cases hds : (dsOf (Dmat S T)).getLast? with
        | none => rfl
        | some b0 =>
          dsimp only
          rw [show T.length = S.length from hlen.symm, searchLoop_swap S T S.length]
      · have hb1 : buildD S T = none := by
          unfold buildD; rw [if_neg hlen]
        have hb2 : buildD T S = none := by
          unfold buildD; rw [if_neg (fun h => hlen h.symm)]
        simp only [hb1, hb2]
